import Mathlib

/-!
# Verification of the go-llm-specs registry, query and search engine

Shallow embedding of the run-time query/search core (`registry.go`,
`model.go`, `capability.go`) and of the alias-construction phase of the
offline generator (`cmd/generator/main.go`).

Go maps are modelled as association lists (`List (String × _)`) looked up
with `List.lookup`, which returns the first binding of a key; the generated
registry has unique keys, so this is faithful.  Go `string` functions
`strings.ToLower`, `strings.ToUpper`, `strings.HasPrefix`,
`strings.Contains`, `strings.EqualFold` and `strings.Split` are embedded on
`List Char` using the ASCII case mapping of `Char.toLower`/`Char.toUpper`
(the data handled by the library is ASCII).  The `Capability` bitmask is a
Go `uint64`; the core only applies `&`, `|` and comparisons to it, none of
which can overflow, so it is embedded as `Nat`.
-/

/-- Go `strings.ToLower` (rune-wise lowercasing). -/
def goToLower (s : String) : String := ⟨s.data.map Char.toLower⟩

/-- Go `strings.ToUpper` (rune-wise uppercasing). -/
def goToUpper (s : String) : String := ⟨s.data.map Char.toUpper⟩

/-- Go `strings.HasPrefix s p`. -/
def goStartsWith (s p : String) : Bool := p.data.isPrefixOf s.data

/-- Helper for `goContains`: does `q` occur as a contiguous run in `l`? -/
def containsAux (q : List Char) : List Char → Bool
  | [] => q.isPrefixOf []
  | c :: rest => q.isPrefixOf (c :: rest) || containsAux q rest

/-- Go `strings.Contains s q` (substring occurrence, true for `q = ""`). -/
def goContains (s q : String) : Bool := containsAux q.data s.data

/-- Go `strings.EqualFold s t` (case-insensitive equality). -/
def goEqualFold (s t : String) : Bool := goToLower s == goToLower t

/-- `capability.go`: `type Capability uint64`. -/
abbrev Capability := Nat

/-- `capability.go`: `func (c Capability) Has(other Capability) bool
{ return c&other != 0 }`. -/
def Capability.Has (c other : Capability) : Bool := c &&& other != 0

/-- `model.go`: the `modelData` struct (the two `float64` price fields are
omitted: no operation of the query/search core reads them). -/
structure modelData where
  IDVal : String
  NameVal : String
  ProviderVal : String
  DescVal : String
  DescCNVal : String
  ContextLenVal : Nat
  MaxOutputVal : Nat
  Features : Capability
  AliasList : List String
  deriving Repr, DecidableEq

/-- `model.go`: `func (m *modelData) HasCapability(c Capability) bool
{ return m.Features&c != 0 }`. -/
def modelData.HasCapability (m : modelData) (c : Capability) : Bool :=
  m.Features &&& c != 0

/-- The state `registry.go` reads: `staticRegistry map[string]*modelData`
and `aliasIndex map[string]string`, both populated once by the generated
`models_gen.go`. -/
structure Registry where
  staticRegistry : List (String × modelData)
  aliasIndex : List (String × String)

/-- `registry.go`: `func Get(name string) (Model, bool)` — exact ID first,
then the alias map keyed by the lowercased name. -/
def Get (r : Registry) (name : String) : Option modelData :=
  match r.staticRegistry.lookup name with
  | some m => some m
  | none =>
    match r.aliasIndex.lookup (goToLower name) with
    | some id =>
      match r.staticRegistry.lookup id with
      | some m => some m
      | none => none
    | none => none

/-- `registry.go`: `func GetMany(names []string) []Model` — appends the
result of `Get` for each name that resolves, skipping the rest. -/
def GetMany (r : Registry) (names : List String) : List modelData :=
  names.filterMap (Get r)

/-- `registry.go`: `type QueryBuilder struct { provider string; capability
Capability }`. -/
structure QueryBuilder where
  provider : String
  capability : Capability
  deriving Repr, DecidableEq

/-- `registry.go`: `func Query() *QueryBuilder` (zero value). -/
def Query : QueryBuilder := ⟨"", 0⟩

/-- `registry.go`: `func (q *QueryBuilder) Provider(p string)`. -/
def QueryBuilder.Provider (q : QueryBuilder) (p : String) : QueryBuilder :=
  { q with provider := p }

/-- `registry.go`: `func (q *QueryBuilder) Has(cap Capability)` —
`q.capability |= cap`. -/
def QueryBuilder.Has (q : QueryBuilder) (c : Capability) : QueryBuilder :=
  { q with capability := q.capability ||| c }

/-- `registry.go`: `func (q *QueryBuilder) List() []Model` — full scan of
`staticRegistry`, skipping records that fail the provider predicate or the
capability superset predicate. -/
def QueryBuilder.List (q : QueryBuilder) (r : Registry) : List modelData :=
  (r.staticRegistry.map Prod.snd).filter fun m =>
    !(q.provider != "" && !goEqualFold m.ProviderVal q.provider) &&
    !(q.capability != 0 && (m.Features &&& q.capability) != q.capability)

/-- `registry.go`, `Search`: the inner alias loop — `for _, alias := range
m.Aliases() { a := strings.ToLower(alias); if a == query { score += 80 }
else if strings.Contains(a, query) { score += 15 } }`. -/
def aliasScore (query : String) (aliases : List String) (score : Nat) : Nat :=
  aliases.foldl
    (fun score al =>
      let a := goToLower al
      if a == query then score + 80
      else if goContains a query then score + 15
      else score)
    score

/-- `registry.go`, `Search`: the per-record score (the `query` argument is
already lowercased by `Search`). -/
def scoreOf (query : String) (m : modelData) : Nat :=
  let id := goToLower m.IDVal
  let name := goToLower m.NameVal
  let score := 0
  let score :=
    if id == query then score + 100
    else if name == query then score + 90
    else score
  let score :=
    if goStartsWith id query then score + 50
    else if goStartsWith name query then score + 40
    else score
  let score :=
    if goContains id query then score + 20
    else if goContains name query then score + 10
    else score
  aliasScore query m.AliasList score

/-- `registry.go`, `Search`: the `sort.Slice` comparator — score
descending, ties broken by `m.ID()` ascending. -/
def searchLess (a b : modelData × Nat) : Bool :=
  if a.2 == b.2 then decide (a.1.IDVal < b.1.IDVal) else decide (b.2 < a.2)

/-- `registry.go`, `Search`: the scan loop — every record of
`staticRegistry` whose score against the (lowercased) query is positive,
paired with that score. -/
def searchPairs (r : Registry) (query : String) : List (modelData × Nat) :=
  (r.staticRegistry.map Prod.snd).filterMap fun m =>
    let score := scoreOf query m
    if 0 < score then some (m, score) else none

/-- `registry.go`: `func Search(query string, limit int) []Model`.  The
comparator induces a total order on (score, ID), so the result of the
(unstable) `sort.Slice` is the `mergeSort` by its reflexive closure. -/
def Search (r : Registry) (query : String) (limit : Int) : List modelData :=
  if query == "" then []
  else
    let query := goToLower query
    let results := searchPairs r query
    let results := results.mergeSort fun a b => !searchLess b a
    let results :=
      if 0 < limit ∧ limit < (results.length : Int) then results.take limit.toNat
      else results
    results.map Prod.fst

/-- `cmd/generator/main.go`: the fields of `ProcessedModel` read by the
alias-construction phase (steps 3a and 3b of `main`); the remaining
fields are only copied into the generated file. -/
structure ProcessedModel where
  ID : String
  Aliases : List String
  deriving Repr, DecidableEq

/-- Splitting a character list at every occurrence of `sep` (structural
recursion, so that concrete instances reduce). -/
def splitOnChar (sep : Char) : List Char → List (List Char)
  | [] => [[]]
  | c :: rest =>
    if c = sep then [] :: splitOnChar sep rest
    else
      match splitOnChar sep rest with
      | [] => [[c]]
      | w :: ws => (c :: w) :: ws

/-- Go `strings.Split s "/"` (for a one-character separator: the list of
runs between occurrences of `/`; `[""]` on the empty string). -/
def goSplit (s : String) : List String :=
  (splitOnChar '/' s.data).map fun l => ⟨l⟩

/-- `cmd/generator/main.go`, step 3a: the `suffixCounts` table —
`suffixCounts[suffix]++` for every model whose ID splits into more than
one `/`-separated part, read back at one suffix. -/
def suffixCount (models : List ProcessedModel) (suf : String) : Nat :=
  models.countP fun p =>
    let parts := goSplit p.ID
    decide (1 < parts.length) && (parts.getLastD "" == suf)

/-- `cmd/generator/main.go`, step 3a, body of the second loop: append the
ID's tail to `p.Aliases` when the ID has a `/`, the tail is unique across
the dataset, and no existing alias equals it case-insensitively. -/
def addSuffixAlias (models : List ProcessedModel) (p : ProcessedModel) :
    ProcessedModel :=
  let parts := goSplit p.ID
  if 1 < parts.length then
    let suffix := parts.getLastD ""
    if suffixCount models suffix == 1 then
      if p.Aliases.any fun a => goEqualFold a suffix then p
      else { p with Aliases := p.Aliases ++ [suffix] }
    else p
  else p

/-- `cmd/generator/main.go`, step 3a: the whole suffix-alias pass over
`processedModels`. -/
def addSuffixAliases (models : List ProcessedModel) : List ProcessedModel :=
  models.map (addSuffixAlias models)

/-- `cmd/generator/main.go`, step 3b, loop body: insert one alias into
`aliasMap`.  When the lowercased alias is already bound to a different ID
the code logs a warning and keeps the existing entry; when it is bound to
the same ID the re-assignment does not change the map. -/
def aliasInsertStep (aliasMap : List (String × String)) (id al : String) :
    List (String × String) :=
  let lowerAlias := goToLower al
  match aliasMap.lookup lowerAlias with
  | some existingID => if existingID != id then aliasMap else aliasMap
  | none => aliasMap ++ [(lowerAlias, id)]

/-- `cmd/generator/main.go`, step 3b: populate `aliasMap` from the
processed models, in list order (`main` sorts `processedModels` by ID only
after this step). -/
def populateAliasMap (models : List ProcessedModel) : List (String × String) :=
  models.foldl
    (fun acc p => p.Aliases.foldl (fun acc al => aliasInsertStep acc p.ID al) acc)
    []

/-- The ranking relation realised by `Search`'s comparator, on records:
score (against the lowercased query) descending, ID ascending on ties. -/
def rankLE (q : String) (a b : modelData) : Prop :=
  scoreOf q b < scoreOf q a ∨ (scoreOf q a = scoreOf q b ∧ a.IDVal ≤ b.IDVal)

/-- Fixture: a record matched only through its ID. -/
def mIdOnly : modelData := ⟨"a", "zzz", "", "", "", 0, 0, 0, []⟩

/-- Fixture: a record whose ID is exactly the query `"x"`. -/
def mExact : modelData := ⟨"x", "zz", "P", "", "", 0, 0, 0, []⟩

/-- Fixture: a record whose name and alias — but not ID — equal `"x"`. -/
def mNameAlias : modelData := ⟨"yy", "x", "P", "", "", 0, 0, 0, ["x"]⟩

/-- Fixture: a registry holding `mExact` and `mNameAlias`. -/
def regRival : Registry := ⟨[("x", mExact), ("yy", mNameAlias)], []⟩

/-- Fixture: a record whose primary key is the upper-case string `"B"`. -/
def mUpperB : modelData := ⟨"B", "Bee", "P", "", "", 0, 0, 0, []⟩

/-- Fixture: the record the alias `"b"` is registered to. -/
def mTarget : modelData := ⟨"x", "Ex", "P", "", "", 0, 0, 0, []⟩

/-- Fixture: a registry where the upper-cased form of the alias `"b"` is
itself a primary key of a different record. -/
def regShadow : Registry := ⟨[("B", mUpperB), ("x", mTarget)], [("b", "x")]⟩

/-- Fixture: two records with vendor-prefixed keys and distinct matches. -/
def mVendorX : modelData := ⟨"a/x", "Model X", "P", "", "", 0, 0, 1, []⟩

/-- Fixture: second vendor record, sharing nothing with the query `"a/x"`. -/
def mVendorY : modelData := ⟨"b/y", "Model Y", "P", "", "", 0, 0, 1, []⟩

/-- Fixture: a registry with the two vendor records. -/
def regVendors : Registry := ⟨[("a/x", mVendorX), ("b/y", mVendorY)], []⟩

/-- Fixture: a registry with one record and one alias `"mx"` for it. -/
def regAliased : Registry := ⟨[("a/x", mVendorX)], [("mx", "a/x")]⟩

/-! ## Supporting lemmas -/

theorem char_toNat_ofNat_of_lt {n : Nat} (h : n < 55296) :
    (Char.ofNat n).toNat = n := by
  rw [Char.ofNat, dif_pos (Or.inl h)]
  rfl

theorem char_toLower_toLower (c : Char) : c.toLower.toLower = c.toLower := by
  simp only [Char.toLower]
  by_cases h : c.toNat ≥ 65 ∧ c.toNat ≤ 90
  · rw [if_pos h]
    have ht : (Char.ofNat (c.toNat + 32)).toNat = c.toNat + 32 :=
      char_toNat_ofNat_of_lt (by omega)
    rw [if_neg (by rw [ht]; omega)]
  · rw [if_neg h, if_neg h]

theorem char_toLower_toUpper (c : Char) : c.toUpper.toLower = c.toLower := by
  simp only [Char.toUpper, Char.toLower]
  by_cases h : c.toNat ≥ 97 ∧ c.toNat ≤ 122
  · rw [if_pos h]
    have ht : (Char.ofNat (c.toNat - 32)).toNat = c.toNat - 32 :=
      char_toNat_ofNat_of_lt (by omega)
    rw [if_pos (by rw [ht]; omega), ht]
    have h32 : c.toNat - 32 + 32 = c.toNat := by omega
    rw [h32, Char.ofNat_toNat, if_neg (by omega)]
  · rw [if_neg h]

theorem goToLower_goToLower (s : String) :
    goToLower (goToLower s) = goToLower s := by
  simp [goToLower, List.map_map, Function.comp_def, char_toLower_toLower]

theorem goToLower_goToUpper (s : String) :
    goToLower (goToUpper s) = goToLower s := by
  simp [goToLower, goToUpper, List.map_map, Function.comp_def,
    char_toLower_toUpper]

theorem goStartsWith_self (s : String) : goStartsWith s s = true := by
  simp [goStartsWith, List.isPrefixOf_iff_prefix]

theorem goContains_self (s : String) : goContains s s = true := by
  unfold goContains
  cases h : s.data with
  | nil => simp [containsAux]
  | cons c rest => simp [containsAux, List.isPrefixOf_iff_prefix]

theorem le_aliasScore (q : String) (as : List String) (s : Nat) :
    s ≤ aliasScore q as s := by
  induction as generalizing s with
  | nil => simp [aliasScore]
  | cons a as ih =>
    simp only [aliasScore, List.foldl_cons] at ih ⊢
    refine le_trans ?_ (ih _)
    dsimp only
    split
    · omega
    · split <;> omega

theorem aliasScore_no_match (q : String) (as : List String) (s : Nat)
    (h : ∀ a ∈ as, goContains (goToLower a) q = false) :
    aliasScore q as s = s := by
  induction as generalizing s with
  | nil => simp [aliasScore]
  | cons a as ih =>
    simp only [aliasScore, List.foldl_cons] at ih ⊢
    have hc : goContains (goToLower a) q = false := h a (by simp)
    have he : (goToLower a == q) = false := by
      rcases hbe : goToLower a == q with _ | _
      · rfl
      · exact absurd (goContains_self q ▸ (eq_of_beq hbe) ▸ hc) (by simp)
    rw [if_neg (by simp [he]), if_neg (by simp [hc])]
    exact ih s (fun x hx => h x (by simp [hx]))

theorem scoreOf_id_exact (q : String) (m : modelData)
    (h : goToLower m.IDVal = q) :
    scoreOf q m = aliasScore q m.AliasList 170 := by
  simp [scoreOf, h, goStartsWith_self, goContains_self]

theorem scoreOf_le_70 (q : String) (m : modelData)
    (h1 : (goToLower m.IDVal == q) = false)
    (h2 : (goToLower m.NameVal == q) = false)
    (h3 : ∀ a ∈ m.AliasList, goContains (goToLower a) q = false) :
    scoreOf q m ≤ 70 := by
  simp only [scoreOf]
  rw [aliasScore_no_match q m.AliasList _ h3]
  simp [h1, h2]
  split_ifs <;> omega

theorem searchLE_iff (a b : modelData × Nat) :
    (!searchLess b a) = true ↔
      (b.2 < a.2 ∨ (a.2 = b.2 ∧ a.1.IDVal ≤ b.1.IDVal)) := by
  by_cases h : b.2 = a.2
  · simp [searchLess, h, not_lt]
  · simp [searchLess, h, not_lt]
    constructor
    · intro hle
      exact Or.inl (lt_of_le_of_ne hle (fun he => h he))
    · rintro (hlt | ⟨he, _⟩)
      · exact le_of_lt hlt
      · exact absurd he.symm h

theorem searchLE_total (a b : modelData × Nat) :
    ((!searchLess b a) || (!searchLess a b)) = true := by
  rcases Nat.lt_trichotomy a.2 b.2 with h | h | h
  · simp [(searchLE_iff b a).2 (Or.inl h)]
  · rcases le_total a.1.IDVal b.1.IDVal with hs | hs
    · simp [(searchLE_iff a b).2 (Or.inr ⟨h, hs⟩)]
    · simp [(searchLE_iff b a).2 (Or.inr ⟨h.symm, hs⟩)]
  · simp [(searchLE_iff a b).2 (Or.inl h)]

theorem searchLE_trans (a b c : modelData × Nat)
    (hab : (!searchLess b a) = true) (hbc : (!searchLess c b) = true) :
    (!searchLess c a) = true := by
  rw [searchLE_iff] at hab hbc ⊢
  rcases hab with h1 | ⟨h1, h1'⟩ <;> rcases hbc with h2 | ⟨h2, h2'⟩
  · exact Or.inl (lt_trans h2 h1)
  · exact Or.inl (h2 ▸ h1)
  · exact Or.inl (h1 ▸ h2)
  · exact Or.inr ⟨h1.trans h2, le_trans h1' h2'⟩

theorem mem_searchPairs {r : Registry} {q : String} {x : modelData × Nat} :
    x ∈ searchPairs r q ↔
      (x.1 ∈ r.staticRegistry.map Prod.snd ∧ x.2 = scoreOf q x.1 ∧ 0 < x.2) := by
  simp only [searchPairs, List.mem_filterMap]
  constructor
  · rintro ⟨a, ha, hfa⟩
    split at hfa
    · rename_i hpos
      cases hfa
      exact ⟨ha, rfl, hpos⟩
    · exact absurd hfa (by simp)
  · rintro ⟨h1, h2, h3⟩
    refine ⟨x.1, h1, ?_⟩
    rw [if_pos (h2 ▸ h3)]
    rw [← h2]

/-! ## Claim theorems -/

/-- C9: for every registry and every limit value, `Search` with the empty
query returns the empty list — a defined degenerate case, not an error and
not the full record list. -/
theorem C9_empty_query_returns_empty (r : Registry) (limit : Int) :
    Search r "" limit = [] := by
  simp [Search]

/-- C10: a zero capability mask is never `Has`-contained (`Capability.Has c
0` and `modelData.HasCapability m 0` are false for every value), while
`QueryBuilder.Has 0` leaves the accumulated filter unchanged, so
`Query().Has(0).List()` returns every record of the index: the zero mask is
"nothing" for the membership test but "no constraint" for the query
filter. -/
theorem C10_zero_mask :
    (∀ c : Capability, Capability.Has c 0 = false) ∧
    (∀ m : modelData, m.HasCapability 0 = false) ∧
    (∀ q : QueryBuilder, q.Has 0 = q) ∧
    (∀ r : Registry, (Query.Has 0).List r = r.staticRegistry.map Prod.snd) := by
  refine ⟨fun c => ?_, fun m => ?_, fun q => ?_, fun r => ?_⟩
  · simp [Capability.Has]
  · simp [modelData.HasCapability]
  · simp [QueryBuilder.Has]
  · simp [Query, QueryBuilder.Has, QueryBuilder.List]

theorem queryPred_iff (q : QueryBuilder) (m : modelData) :
    (!(q.provider != "" && !goEqualFold m.ProviderVal q.provider) &&
     !(q.capability != 0 && (m.Features &&& q.capability) != q.capability)) = true ↔
    ((q.provider = "" ∨ goEqualFold m.ProviderVal q.provider = true) ∧
     (q.capability = 0 ∨ m.Features &&& q.capability = q.capability)) := by
  by_cases h1 : q.provider = "" <;> by_cases h2 : q.capability = 0 <;>
    simp [h1, h2, bne]

/-- C2: a record is in `Query(...).List()` iff it is in the index and
passes the conjunction of the set predicates: provider equality up to case
when a provider is set, and possession of every accumulated capability bit
(`features &&& requested = requested`) when capabilities were accumulated;
with no predicate set, `List()` returns every record, and folding `Has`
over capabilities `c1..cn` accumulates exactly their bitwise union. -/
theorem C2_query_list_spec :
    (∀ (q : QueryBuilder) (r : Registry) (m : modelData),
        m ∈ q.List r ↔
          m ∈ r.staticRegistry.map Prod.snd ∧
          (q.provider = "" ∨ goEqualFold m.ProviderVal q.provider = true) ∧
          (q.capability = 0 ∨ m.Features &&& q.capability = q.capability)) ∧
    (∀ r : Registry, Query.List r = r.staticRegistry.map Prod.snd) ∧
    (∀ (cs : List Capability) (q : QueryBuilder),
        (cs.foldl QueryBuilder.Has q).capability =
          cs.foldl (· ||| ·) q.capability) := by
  refine ⟨fun q r m => ?_, fun r => ?_, fun cs => ?_⟩
  · rw [QueryBuilder.List, List.mem_filter, queryPred_iff]
  · simp [Query, QueryBuilder.List]
  · intro q
    induction cs generalizing q with
    | nil => rfl
    | cons c cs ih => simp [List.foldl_cons, QueryBuilder.Has, ih]

/-- C6: `GetMany` resolves names in order through `Get`, silently dropping
misses: it distributes over append, maps a single name to the (possibly
empty) result of `Get`, and its output length equals the number of inputs
that resolve; duplicates are kept. -/
theorem C6_getmany_spec :
    (∀ (r : Registry) (ns1 ns2 : List String),
        GetMany r (ns1 ++ ns2) = GetMany r ns1 ++ GetMany r ns2) ∧
    (∀ (r : Registry) (n : String) (ns : List String),
        GetMany r (n :: ns) = (Get r n).toList ++ GetMany r ns) ∧
    (∀ (r : Registry) (n : String), GetMany r [n, n] = (Get r n).toList ++ (Get r n).toList) ∧
    (∀ (r : Registry) (ns : List String),
        (GetMany r ns).length = (ns.filter fun n => (Get r n).isSome).length) := by
  have hcons : ∀ (r : Registry) (n : String) (ns : List String),
      GetMany r (n :: ns) = (Get r n).toList ++ GetMany r ns := by
    intro r n ns
    simp only [GetMany, List.filterMap_cons]
    cases Get r n <;> simp
  refine ⟨fun r ns1 ns2 => ?_, hcons, fun r n => ?_, fun r ns => ?_⟩
  · simp [GetMany, List.filterMap_append]
  · rw [hcons, hcons]
    simp [GetMany]
  · induction ns with
    | nil => simp [GetMany]
    | cons n ns ih =>
      rw [hcons]
      cases hg : Get r n <;> simp [hg, List.filter_cons, ih]

/-- C1 counterexample: a record whose lowercased ID equals the lowercased
query (and whose name and aliases match nothing) scores 170, not 100 — the
id-prefix (+50) and id-substring (+20) rules fire on top of the exact id
match, contrary to the claimed per-column exclusivity. -/
theorem C1_counterexample :
    goToLower mIdOnly.IDVal = goToLower "a" ∧
    scoreOf (goToLower "a") mIdOnly = 170 ∧
    scoreOf (goToLower "a") mIdOnly ≠ 100 := by
  refine ⟨rfl, by decide, by decide⟩

/-- C1 (amended): the mutual exclusivity in `Search` scoring is between the
id and the name within each tier (the name-side rule of a tier applies only
when the id-side rule of that tier did not), not between tiers: a record
whose lowercased ID equals the query receives 100 + 50 + 20 = 170 from the
id/name rules — the exact, prefix and substring id rules all fire — and the
name rules contribute nothing; only alias contributions are added on top. -/
theorem C1_id_rules_stack (q : String) (m : modelData)
    (h : goToLower m.IDVal = q) :
    scoreOf q m = aliasScore q m.AliasList 170 :=
  scoreOf_id_exact q m h

/-- Witness for `C1_id_rules_stack` at the fixture record. -/
theorem C1_id_rules_stack_witness :
    goToLower mIdOnly.IDVal = "a" ∧
    scoreOf "a" mIdOnly = aliasScore "a" mIdOnly.AliasList 170 :=
  ⟨by decide, C1_id_rules_stack "a" mIdOnly (by decide)⟩

/-- C3 counterexample: `Get` tries the exact, case-sensitive primary-key
map first, so when the upper-cased form of a registered alias is itself the
primary key of a different record, `Get(uppercase(A))` returns that other
record instead of the alias's target: alias `"b"` is registered to key
`"x"`, but `Get "B"` returns the record keyed `"B"`. -/
theorem C3_counterexample :
    regShadow.aliasIndex.lookup (goToLower "b") = some "x" ∧
    regShadow.staticRegistry.lookup "x" = some mTarget ∧
    goToUpper "b" = "B" ∧
    Get regShadow (goToUpper "b") = some mUpperB ∧
    mUpperB ≠ mTarget :=
  ⟨by decide, by decide, by decide, by decide, by decide⟩

/-- C3 (amended): `Get` tries an exact, case-sensitive primary-key match
first, then the alias map under the lowercased name, and reports not-found
when both miss; for every alias `A` registered (lowercased) to key `K`,
`Get A`, `Get (uppercase A)` and `Get (lowercase A)` all return `K`'s
record, provided none of those three strings is itself a primary key. -/
theorem C3_lookup_spec (r : Registry) (A K : String) (m : modelData)
    (hal : r.aliasIndex.lookup (goToLower A) = some K)
    (hK : r.staticRegistry.lookup K = some m)
    (hA : r.staticRegistry.lookup A = none)
    (hU : r.staticRegistry.lookup (goToUpper A) = none)
    (hL : r.staticRegistry.lookup (goToLower A) = none) :
    Get r A = some m ∧
    Get r (goToUpper A) = some m ∧
    Get r (goToLower A) = some m ∧
    (∀ (s : String) (m' : modelData),
        r.staticRegistry.lookup s = some m' → Get r s = some m') ∧
    (∀ s : String, r.staticRegistry.lookup s = none →
        r.aliasIndex.lookup (goToLower s) = none → Get r s = none) := by
  refine ⟨?_, ?_, ?_, fun s m' h => ?_, fun s h1 h2 => ?_⟩
  · simp [Get, hA, hal, hK]
  · simp [Get, hU, goToLower_goToUpper, hal, hK]
  · simp [Get, hL, goToLower_goToLower, hal, hK]
  · simp [Get, h]
  · simp [Get, h1, h2]

/-- Witness for `C3_lookup_spec`: the alias `"mx"` of `"a/x"`, queried as
`"mX"`, `"MX"` and `"mx"`. -/
theorem C3_lookup_spec_witness :
    regAliased.aliasIndex.lookup (goToLower "mX") = some "a/x" ∧
    regAliased.staticRegistry.lookup "a/x" = some mVendorX ∧
    regAliased.staticRegistry.lookup "mX" = none ∧
    Get regAliased "mX" = some mVendorX ∧
    Get regAliased (goToUpper "mX") = some mVendorX ∧
    Get regAliased (goToLower "mX") = some mVendorX := by
  have h := C3_lookup_spec regAliased "mX" "a/x" mVendorX (by decide)
    (by decide) (by decide) (by decide) (by decide)
  exact ⟨by decide, by decide, by decide, h.1, h.2.1, h.2.2.1⟩

theorem lookup_insertStep (acc : List (String × String)) (id al k : String) :
    (aliasInsertStep acc id al).lookup k =
      (acc.lookup k).or (List.lookup k [(goToLower al, id)]) := by
  simp only [aliasInsertStep]
  cases h : acc.lookup (goToLower al) with
  | some v =>
    simp only [h, ite_self]
    by_cases hk : k = goToLower al
    · subst hk
      simp [h, List.lookup]
    · have : List.lookup k [(goToLower al, id)] = none := by
        simp [List.lookup, beq_eq_false_iff_ne.2 hk]
      simp [this]
  | none =>
    simp only [h]
    exact List.lookup_append

theorem lookup_foldl_aliases (id : String) (als : List String)
    (acc : List (String × String)) (k : String) :
    ((als.foldl (fun acc al => aliasInsertStep acc id al) acc).lookup k)
      = (acc.lookup k).or ((als.map fun a => (goToLower a, id)).lookup k) := by
  induction als generalizing acc with
  | nil => simp
  | cons a as ih =>
    simp only [List.foldl_cons, List.map_cons]
    rw [ih, lookup_insertStep]
    rw [show ((goToLower a, id) :: (as.map fun a => (goToLower a, id)))
        = [(goToLower a, id)] ++ (as.map fun a => (goToLower a, id)) from rfl]
    rw [List.lookup_append, Option.or_assoc]

theorem lookup_foldl_models (models : List ProcessedModel)
    (acc : List (String × String)) (k : String) :
    ((models.foldl
        (fun acc p => p.Aliases.foldl (fun acc al => aliasInsertStep acc p.ID al) acc)
        acc).lookup k)
      = (acc.lookup k).or
          ((models.flatMap fun p => p.Aliases.map fun a => (goToLower a, p.ID)).lookup k) := by
  induction models generalizing acc with
  | nil => simp
  | cons p ps ih =>
    simp only [List.foldl_cons, List.flatMap_cons]
    rw [ih, lookup_foldl_aliases, List.lookup_append, Option.or_assoc]

/-- C8 counterexample: the alias map is populated *before* `main` sorts
`processedModels` by ID, so the collision winner is the first model in
input order, not the first in sorted-key order: with input order
`["b"; "a"]` the alias `"x"` maps to `"b"`, though the sorted order of the
primary keys would make `"a"` the first-inserted. -/
theorem C8_counterexample :
    (populateAliasMap [⟨"b", ["x"]⟩, ⟨"a", ["x"]⟩]).lookup "x" = some "b" ∧
    (populateAliasMap [⟨"a", ["x"]⟩, ⟨"b", ["x"]⟩]).lookup "x" = some "a" ∧
    ("b" : String) ≠ "a" :=
  ⟨by decide, by decide, by decide⟩

/-- C8 (amended): alias collisions are resolved deterministically by
first-inserted-wins, where the insertion order is the order of the
processed-model list at population time (the input order — the sort by
primary key happens only afterwards): looking up any key in the populated
alias map yields the first binding of that key in the flattened
(lowercased alias, ID) stream of the models. -/
theorem C8_first_inserted_wins (models : List ProcessedModel) (k : String) :
    (populateAliasMap models).lookup k =
      (models.flatMap fun p => p.Aliases.map fun a => (goToLower a, p.ID)).lookup k := by
  rw [populateAliasMap, lookup_foldl_models]
  simp

/-- C7: during generation, the `/`-tail of a key is appended as an extra
alias exactly when the key contains a `/`, the tail is unique across the
whole dataset, and the tail is not already present case-insensitively among
that key's explicit aliases; concretely, with keys `a/foo` and `b/bar` the
alias `foo` is registered for `a/foo`, while with keys `a/foo` and `b/foo`
it is registered for neither. -/
theorem C7_suffix_alias_spec :
    (∀ (models : List ProcessedModel) (p : ProcessedModel),
        (addSuffixAlias models p).Aliases =
          (if 1 < (goSplit p.ID).length ∧
              suffixCount models ((goSplit p.ID).getLastD "") = 1 ∧
              (∀ a ∈ p.Aliases, goEqualFold a ((goSplit p.ID).getLastD "") = false)
           then p.Aliases ++ [(goSplit p.ID).getLastD ""]
           else p.Aliases)) ∧
    (∀ models : List ProcessedModel,
        addSuffixAliases models = models.map (addSuffixAlias models)) ∧
    (addSuffixAliases [⟨"a/foo", []⟩, ⟨"b/bar", []⟩] =
        [⟨"a/foo", ["foo"]⟩, ⟨"b/bar", ["bar"]⟩]) ∧
    (addSuffixAliases [⟨"a/foo", []⟩, ⟨"b/foo", []⟩] =
        [⟨"a/foo", []⟩, ⟨"b/foo", []⟩]) := by
  refine ⟨fun models p => ?_, fun models => rfl, by decide, by decide⟩
  simp only [addSuffixAlias]
  set suf := (goSplit p.ID).getLastD "" with hsuf
  by_cases h1 : 1 < (goSplit p.ID).length
  · rw [if_pos h1]
    by_cases h2 : suffixCount models suf = 1
    · by_cases h3 : ∀ a ∈ p.Aliases, goEqualFold a suf = false
      · have hany : (p.Aliases.any fun a => goEqualFold a suf) = false := by
          rw [List.any_eq_false]
          intro a ha
          simp [h3 a ha]
        rw [if_pos (beq_iff_eq.2 h2), if_neg (by simp [hany]),
          if_pos ⟨h1, h2, h3⟩]
      · have hany : (p.Aliases.any fun a => goEqualFold a suf) = true := by
          rw [List.any_eq_true]
          push_neg at h3
          obtain ⟨a, ha, hne⟩ := h3
          exact ⟨a, ha, by simpa using hne⟩
        rw [if_pos (beq_iff_eq.2 h2), if_pos hany, if_neg (by tauto)]
    · rw [if_neg (by simpa using h2), if_neg (by tauto)]
  · rw [if_neg h1, if_neg (by tauto)]

theorem search_eq_of_ne (r : Registry) (query : String) (limit : Int)
    (hq : query ≠ "") :
    Search r query limit =
      (if 0 < limit ∧ limit < (((searchPairs r (goToLower query)).mergeSort
            fun a b => !searchLess b a).length : Int)
       then ((searchPairs r (goToLower query)).mergeSort
            fun a b => !searchLess b a).take limit.toNat
       else (searchPairs r (goToLower query)).mergeSort
            fun a b => !searchLess b a).map Prod.fst := by
  simp only [Search]
  rw [if_neg (by simp [hq])]

/-- C4: for every non-empty query, the `Search` output is sorted by
descending score with ties broken by ascending primary ID (the `rankLE`
relation holds pairwise); a positive limit caps the number of results at
the limit and returns exactly the top `limit` records — the prefix of the
full ranked list — and a non-positive limit returns the full ranked list:
exactly the records of the index with positive score. -/
theorem C4_search_order_and_limit (r : Registry) (query : String)
    (limit : Int) (hq : query ≠ "") :
    (Search r query limit).Pairwise (rankLE (goToLower query)) ∧
    (0 < limit → (Search r query limit).length ≤ limit.toNat) ∧
    (0 < limit →
        Search r query limit = (Search r query 0).take limit.toNat) ∧
    (limit ≤ 0 → ∀ m : modelData,
        m ∈ Search r query limit ↔
          m ∈ r.staticRegistry.map Prod.snd ∧
          0 < scoreOf (goToLower query) m) := by
  rw [search_eq_of_ne r query limit hq, search_eq_of_ne r query 0 hq]
  set q := goToLower query with hqdef
  set sorted := (searchPairs r q).mergeSort (fun a b => !searchLess b a)
    with hsorted
  have hfacts : ∀ x ∈ sorted, x.1 ∈ r.staticRegistry.map Prod.snd ∧
      x.2 = scoreOf q x.1 ∧ 0 < x.2 := by
    intro x hx
    rw [hsorted] at hx
    exact mem_searchPairs.1 (List.mem_mergeSort.1 hx)
  have hpair : sorted.Pairwise fun a b => (!searchLess b a) = true := by
    rw [hsorted]
    exact List.sorted_mergeSort searchLE_trans searchLE_total _
  have hpair2 : sorted.Pairwise fun a b => rankLE q a.1 b.1 := by
    refine List.Pairwise.imp_of_mem (fun {a b} ha hb hr => ?_) hpair
    obtain ⟨_, ha2, _⟩ := hfacts a ha
    obtain ⟨_, hb2, _⟩ := hfacts b hb
    have h := (searchLE_iff a b).1 hr
    unfold rankLE
    rw [← ha2, ← hb2]
    exact h
  refine ⟨?_, ?_, ?_, ?_⟩
  · rw [List.pairwise_map]
    split
    · exact hpair2.sublist (List.take_sublist _ _)
    · exact hpair2
  · intro hl
    rw [List.length_map]
    split
    · rw [List.length_take]
      omega
    · rename_i hcond
      push_neg at hcond
      have hc := hcond hl
      omega
  · intro hl
    have c0 : ¬((0 : Int) < (0 : Int) ∧ (0 : Int) < (sorted.length : Int)) := by
      omega
    rw [if_neg c0]
    split
    · rw [List.map_take]
    · rename_i hcond
      push_neg at hcond
      have hlen : (sorted.length : Int) ≤ limit := hcond hl
      exact (List.take_of_length_le (by rw [List.length_map]; omega)).symm
  · intro hl m
    rw [if_neg (by omega)]
    rw [List.mem_map]
    constructor
    · rintro ⟨x, hx, rfl⟩
      obtain ⟨h1, h2, h3⟩ := hfacts x hx
      exact ⟨h1, h2 ▸ h3⟩
    · rintro ⟨h1, h2⟩
      refine ⟨(m, scoreOf q m), ?_, rfl⟩
      rw [hsorted]
      exact List.mem_mergeSort.2 (mem_searchPairs.2 ⟨h1, rfl, h2⟩)

/-- Witness for `C4_search_order_and_limit` at a concrete registry. -/
theorem C4_search_order_and_limit_witness :
    (Search regVendors "a/x" 1).Pairwise (rankLE (goToLower "a/x")) ∧
    (0 < (1 : Int) → (Search regVendors "a/x" 1).length ≤ (1 : Int).toNat) ∧
    (0 < (1 : Int) →
        Search regVendors "a/x" 1 = (Search regVendors "a/x" 0).take (1 : Int).toNat) ∧
    ((1 : Int) ≤ 0 → ∀ m : modelData,
        m ∈ Search regVendors "a/x" 1 ↔
          m ∈ regVendors.staticRegistry.map Prod.snd ∧
          0 < scoreOf (goToLower "a/x") m) :=
  C4_search_order_and_limit regVendors "a/x" 1 (by decide)

/-- C5 counterexample: an exact-ID match is *not* always ranked first — a
rival record whose name and alias both equal the key scores 220 against the
exact match's 170, so `Search("x", 1)` returns the rival, not the record
keyed `"x"`. -/
theorem C5_counterexample :
    ("x", mExact) ∈ regRival.staticRegistry ∧
    scoreOf (goToLower "x") mExact = 170 ∧
    scoreOf (goToLower "x") mNameAlias = 220 ∧
    Search regRival "x" 1 = [mNameAlias] ∧
    mNameAlias.IDVal ≠ "x" := by
  refine ⟨by decide, by decide, by decide, ?_, by decide⟩
  rw [search_eq_of_ne regRival "x" 1 (by decide),
    show goToLower "x" = "x" from by decide,
    show searchPairs regRival "x" = [(mExact, 170), (mNameAlias, 220)]
      from by decide]
  simp [List.mergeSort, List.merge, searchLess, mExact, mNameAlias]

/-- C5 (amended): `Search(R.primaryKey, 1)` returns exactly `[R]` provided
the registry keys records by their IDs and no other record matches the key
through an equal lowercased ID, an equal lowercased name, or an alias
containing the key — every such competitor scores at most 70, strictly
below the at-least-170 of the exact-ID match, so in particular records that
merely contain the key as a substring of their ID or name are outranked. -/
theorem C5_exact_key_first (r : Registry) (k : String) (R : modelData)
    (hk : k ≠ "")
    (hkeys : ∀ p ∈ r.staticRegistry, (Prod.snd p).IDVal = p.1)
    (hR : (k, R) ∈ r.staticRegistry)
    (hid : ∀ p ∈ r.staticRegistry, p.2 ≠ R →
        goToLower (Prod.snd p).IDVal ≠ goToLower k)
    (hname : ∀ p ∈ r.staticRegistry, p.2 ≠ R →
        goToLower (Prod.snd p).NameVal ≠ goToLower k)
    (hali : ∀ p ∈ r.staticRegistry, p.2 ≠ R →
        ∀ a ∈ (Prod.snd p).AliasList,
          goContains (goToLower a) (goToLower k) = false) :
    Search r k 1 = [R] := by
  rw [search_eq_of_ne r k 1 hk]
  set q := goToLower k with hqdef
  set sorted := (searchPairs r q).mergeSort (fun a b => !searchLess b a)
    with hsorted
  have hRid : goToLower R.IDVal = q := by
    rw [hkeys (k, R) hR]
  have hscoreR : 170 ≤ scoreOf q R := by
    rw [scoreOf_id_exact q R hRid]
    exact le_aliasScore q R.AliasList 170
  have hbound : ∀ m, m ∈ r.staticRegistry.map Prod.snd → m ≠ R →
      scoreOf q m ≤ 70 := by
    intro m hm hne
    obtain ⟨p, hp, hp2⟩ := List.mem_map.1 hm
    subst hp2
    refine scoreOf_le_70 q p.2 ?_ ?_ (fun a ha => hali p hp hne a ha)
    · exact beq_eq_false_iff_ne.2 (hid p hp hne)
    · exact beq_eq_false_iff_ne.2 (hname p hp hne)
  have hfacts : ∀ x ∈ sorted, x.1 ∈ r.staticRegistry.map Prod.snd ∧
      x.2 = scoreOf q x.1 ∧ 0 < x.2 := by
    intro x hx
    rw [hsorted] at hx
    exact mem_searchPairs.1 (List.mem_mergeSort.1 hx)
  have hpair : sorted.Pairwise fun a b => (!searchLess b a) = true := by
    rw [hsorted]
    exact List.sorted_mergeSort searchLE_trans searchLE_total _
  have hmemR : (R, scoreOf q R) ∈ sorted := by
    rw [hsorted]
    refine List.mem_mergeSort.2 (mem_searchPairs.2 ⟨?_, rfl, by omega⟩)
    exact List.mem_map.2 ⟨(k, R), hR, rfl⟩
  obtain ⟨y, ys, hsor⟩ : ∃ y ys, sorted = y :: ys := by
    cases hs : sorted with
    | nil =>
      rw [hs] at hmemR
      cases hmemR
    | cons y ys => exact ⟨y, ys, rfl⟩
  have hy1 : y.1 = R := by
    by_contra hne
    have hyfacts := hfacts y (by rw [hsor]; exact List.mem_cons_self y ys)
    obtain ⟨hym, hy2, _⟩ := hyfacts
    have hb := hbound y.1 hym hne
    rw [hsor] at hmemR
    rcases List.mem_cons.1 hmemR with h | h
    · exact hne (congrArg Prod.fst h.symm)
    · have hle := List.rel_of_pairwise_cons (hsor ▸ hpair) h
      have hor := (searchLE_iff y (R, scoreOf q R)).1 hle
      dsimp only at hor
      omega
  by_cases hlen : (1 : Int) < (sorted.length : Int)
  · rw [if_pos ⟨by norm_num, hlen⟩, hsor]
    simp [hy1]
  · rw [if_neg (fun h => hlen h.2)]
    have hys : ys = [] := by
      have h1 : sorted.length ≤ 1 := by omega
      rw [hsor, List.length_cons] at h1
      exact List.length_eq_zero.1 (by omega)
    rw [hsor, hys]
    simp [hy1]

/-- Witness for `C5_exact_key_first` at a concrete two-record registry. -/
theorem C5_exact_key_first_witness :
    Search regVendors "a/x" 1 = [mVendorX] :=
  C5_exact_key_first regVendors "a/x" mVendorX (by decide) (by decide)
    (by decide) (by decide) (by decide) (by decide)
